import Mathlib

/-!
Shallow embedding of the "Graph-Search-Redo" engine of `fsearch.py`
(`Node`, `getpath`, `sort_options`, `expand`, `main`), together with proofs
of the documented properties of the pruning rules, the driver loop, and the
concrete test scenarios.

Conventions of the embedding:
* Python numeric costs / heuristic values are embedded as `Int` (every
  workload in the claims uses integer costs, and Python's comparison on
  these values coincides with the `Int` order).
* The global `node_count` is threaded explicitly; `Node.__init__`'s
  increment happens at each node creation.
* A node's `children` list is omitted: the engine never reads it (it is
  used only by the drawing instrumentation, which is out of scope).
* Printing / drawing instrumentation (`verbose`, `draw_edges`) is omitted.
* Calling the heuristic when `h = None` raises
  `TypeError: NoneType object is not callable` in Python; this is embedded
  as `Except.error PyErr.noneNotCallable`.
-/

/-- A search-tree node, mirroring class `Node` of `fsearch.py`:
id number, state, depth, accumulated cost `g`, heuristic value `h`
(absent when no heuristic was supplied), and the parent link.  The two
constructors mirror the `if parent:` branch of `Node.__init__`
(a root has no parent).  The `children` back-references are omitted:
the engine never consults them. -/
inductive Node (σ : Type) : Type where
  | root (id : Nat) (state : σ) (depth : Nat) (g : Int) (h : Option Int) : Node σ
  | child (id : Nat) (state : σ) (depth : Nat) (g : Int) (h : Option Int)
      (parent : Node σ) : Node σ
deriving DecidableEq

/-- The node's id number (`self.id`). -/
def Node.id {σ : Type} : Node σ → Nat
  | .root i _ _ _ _ => i
  | .child i _ _ _ _ _ => i

/-- The node's state (`self.state`). -/
def Node.state {σ : Type} : Node σ → σ
  | .root _ s _ _ _ => s
  | .child _ s _ _ _ _ => s

/-- The node's depth in the search tree (`self.depth`). -/
def Node.depth {σ : Type} : Node σ → Nat
  | .root _ _ d _ _ => d
  | .child _ _ d _ _ _ => d

/-- The node's accumulated path cost (`self.g`). -/
def Node.g {σ : Type} : Node σ → Int
  | .root _ _ _ g _ => g
  | .child _ _ _ g _ _ => g

/-- The node's stored heuristic value (`self.h`); `none` embeds Python's
`None`. -/
def Node.h {σ : Type} : Node σ → Option Int
  | .root _ _ _ _ h => h
  | .child _ _ _ _ h _ => h

/-- The node's parent (`self.parent`); `none` for a root. -/
def Node.parent {σ : Type} : Node σ → Option (Node σ)
  | .root _ _ _ _ _ => none
  | .child _ _ _ _ _ p => p

/-- Return the path from the root to `y` (function `getpath` of
`fsearch.py`: collect parent links, then reverse — expressed directly as
recursion producing the root-first order). -/
def getpath {σ : Type} : Node σ → List (Node σ)
  | .root i s d g h => [Node.root i s d g h]
  | .child i s d g h p => getpath p ++ [Node.child i s d g h p]

/-- The five search strategies of `sort_options` in `fsearch.py`:
`'bf'`, `'df'`, `'uc'`, `'gbf'`, `'a*'`. -/
inductive Strategy : Type where
  | bf | df | uc | gbf | astar
deriving DecidableEq

/-- The priority key function of each strategy (`sort_options`):
`bf ↦ x.id`, `df ↦ -x.id`, `uc ↦ x.g`, `gbf ↦ x.h`, `a* ↦ x.g + x.h`.
For `gbf`/`a*` Python reads `x.h` directly; when `x.h` is `None` any
comparison of keys would raise a `TypeError`.  In every run embedded here,
whenever two keys are actually compared all nodes involved carry a present
`h` (a run without a heuristic either errors out at the heuristic call
site before any comparison, or never holds two nodes at once), so the
embedding reads the value with a default that is never observed. -/
def keyFunc {σ : Type} : Strategy → Node σ → Int
  | .bf => fun x => (x.id : Int)
  | .df => fun x => -(x.id : Int)
  | .uc => fun x => x.g
  | .gbf => fun x => x.h.getD 0
  | .astar => fun x => x.g + x.h.getD 0

/-- Stable insertion of `x` into `l`: `x` is placed after every element
whose key is `≤ key x` and before the first element with a strictly
greater key. -/
def insKey {σ : Type} (key : Node σ → Int) (x : Node σ) : List (Node σ) → List (Node σ)
  | [] => [x]
  | y :: l => if key y ≤ key x then y :: insKey key x l else x :: y :: l

/-- `frontier.sort(key=key_func)` of `fsearch.py`: Python's `list.sort` is
a stable sort by the key; a left-to-right stable insertion sort computes
the same list. -/
def sortKey {σ : Type} (key : Node σ → Int) (l : List (Node σ)) : List (Node σ) :=
  l.foldl (fun acc x => insKey key x acc) []

/-- The condition of the `n_prune` list comprehension in `expand`
(lines 119–123 of `fsearch.py`): a candidate `m` is dominated if some
`explored` node shares its state with key `≤ key m`, or some `frontier`
node does, or another candidate in `newL` shares its state with a strictly
smaller key, or with an equal key and a smaller id. -/
def nPruneCond {σ : Type} [DecidableEq σ] (strat : Strategy)
    (newL frontier explored : List (Node σ)) (m : Node σ) : Bool :=
  (explored.any fun n => decide (m.state = n.state) &&
    decide (keyFunc strat n ≤ keyFunc strat m)) ||
  (frontier.any fun n => decide (m.state = n.state) &&
    decide (keyFunc strat n ≤ keyFunc strat m)) ||
  (newL.any fun n => decide (m.state = n.state) &&
    decide (keyFunc strat n < keyFunc strat m)) ||
  (newL.any fun n => decide (m.state = n.state) &&
    decide (keyFunc strat m = keyFunc strat n) && decide (n.id < m.id))

/-- The condition of the `f_prune` and `e_prune` list comprehensions in
`expand` (lines 127–128 and 132–133 of `fsearch.py`): a node `m` is
superseded if some retained new candidate shares its state with a strictly
smaller key. -/
def supersedeCond {σ : Type} [DecidableEq σ] (strat : Strategy)
    (retained : List (Node σ)) (m : Node σ) : Bool :=
  retained.any fun n => decide (m.state = n.state) &&
    decide (keyFunc strat n < keyFunc strat m)

/-- The six lists returned by `expand` in `fsearch.py`: retained new
nodes, nodes pruned from new, the updated frontier, nodes pruned from the
frontier, the updated explored list, and nodes pruned from explored. -/
structure ExpandOut (σ : Type) where
  new : List (Node σ)
  n_prune : List (Node σ)
  frontier : List (Node σ)
  f_prune : List (Node σ)
  explored : List (Node σ)
  e_prune : List (Node σ)

/-- Line 124 of `fsearch.py`: `new = [m for m in new if not m in n_prune]`.
Python's `in` tests membership by object identity here, so this retains
exactly the candidates failing the `n_prune` condition. -/
def retainedNew {σ : Type} [DecidableEq σ] (strat : Strategy)
    (newL frontier explored : List (Node σ)) : List (Node σ) :=
  newL.filter fun m => ! nPruneCond strat newL frontier explored m

/-- The pruning / merging body of `expand` (lines 118–137 of
`fsearch.py`), acting on an already generated candidate list `newL`:
compute `n_prune` and the retained candidates, filter the frontier and
explored lists against the retained candidates, extend the frontier with
the retained candidates and re-sort it by the strategy key. -/
def expandPrune {σ : Type} [DecidableEq σ] (strat : Strategy)
    (newL frontier explored : List (Node σ)) : ExpandOut σ :=
  { new := retainedNew strat newL frontier explored,
    n_prune := newL.filter (nPruneCond strat newL frontier explored),
    frontier := sortKey (keyFunc strat)
      ((frontier.filter fun m =>
          ! supersedeCond strat (retainedNew strat newL frontier explored) m) ++
        retainedNew strat newL frontier explored),
    f_prune := frontier.filter
      (supersedeCond strat (retainedNew strat newL frontier explored)),
    explored := explored.filter fun m =>
      ! supersedeCond strat (retainedNew strat newL frontier explored) m,
    e_prune := explored.filter
      (supersedeCond strat (retainedNew strat newL frontier explored)) }

/-- Line 116 of `fsearch.py`:
`new = [Node(s, x, cost, h(s)) for (s,cost) in next_states(x.state)]`.
Nodes are created left to right, each one incrementing the global
`node_count` and taking the incremented value as its id; a child node gets
`depth = parent.depth + 1` and `g = parent.g + cost`. -/
def genNew {σ : Type} (x : Node σ) (hf : σ → Int) :
    List (σ × Int) → Nat → List (Node σ) × Nat
  | [], count => ([], count)
  | (s, c) :: rest, count =>
    let n : Node σ := .child (count + 1) s (x.depth + 1) (x.g + c) (some (hf s)) x
    let r := genNew x hf rest (count + 1)
    (n :: r.1, r.2)

/-- The Python exception the engine can raise: `expand` calls `h(s)`
unconditionally at line 116, and when `h` is `None` Python raises
`TypeError: NoneType object is not callable`. -/
inductive PyErr : Type where
  | noneNotCallable
deriving DecidableEq

/-- Function `expand` of `fsearch.py` (without the printing / drawing
instrumentation): generate the candidate nodes for the successors of `x`,
then prune and merge.  When no heuristic was supplied (`hOpt = none`) and
there is at least one successor, the call `h(s)` raises; with no
successors the comprehension never calls `h` and the step degenerates to
re-sorting the frontier. -/
def expandStep {σ : Type} [DecidableEq σ] (strat : Strategy)
    (hOpt : Option (σ → Int)) (next : σ → List (σ × Int)) (x : Node σ)
    (frontier explored : List (Node σ)) (count : Nat) :
    Except PyErr (ExpandOut σ × Nat) :=
  match hOpt with
  | some hf =>
    let r := genNew x hf (next x.state) count
    .ok (expandPrune strat r.1 frontier explored, r.2)
  | none =>
    match next x.state with
    | [] => .ok (expandPrune strat [] frontier explored, count)
    | _ :: _ => .error .noneNotCallable

/-- The mutable state of the driver loop in `main`: the frontier and
explored lists, the global `node_count`, and the running `prunes`
counter. -/
structure RunState (σ : Type) where
  frontier : List (Node σ)
  explored : List (Node σ)
  count : Nat
  prunes : Nat

/-- Outcome of a terminated run: on success `main` calls
`finish(x, node_count, prunes, frontier, explored, ...)` with the goal
node `x`; the embedding records the goal node, the state list
`[p.state for p in getpath(x)]` that `finish` returns, and the final
internal state.  On failure `main` returns `False`; the final internal
state is recorded alongside. -/
inductive RunResult (σ : Type) where
  | success (goalNode : Node σ) (path : List σ) (finalSt : RunState σ)
  | failure (finalSt : RunState σ)

/-- The value `main` actually hands back to its caller: the list of
states on success (`finish`'s `return [p.state for p in path]`), or the
literal `False` on failure (`return False`). -/
inductive PyRet (σ : Type) where
  | pathList (states : List σ)
  | falseRet
deriving DecidableEq

/-- Project the caller-visible Python return value out of a run result. -/
def pyValue {σ : Type} : RunResult σ → PyRet σ
  | .success _ path _ => .pathList path
  | .failure _ => .falseRet

/-- The `Selecting` move of the driver loop: `x = frontier.pop(0)` then
`explored.append(x)` (lines 180–181 of `fsearch.py`); `none` when the
frontier is empty (the loop exits). -/
def selectStep {σ : Type} (st : RunState σ) : Option (Node σ × RunState σ) :=
  match st.frontier with
  | [] => none
  | x :: rest =>
    some (x, { st with frontier := rest, explored := st.explored ++ [x] })

/-- The `while frontier:` loop of `main` (lines 178–193 of `fsearch.py`),
with an explicit fuel bound; `.ok none` means the fuel ran out with the
loop still running.  Each iteration pops the head of the frontier, appends
it to explored, tests the goal (returning the reconstructed path on
success), otherwise expands and accumulates the prune counter. -/
def searchLoop {σ : Type} [DecidableEq σ] (strat : Strategy)
    (next : σ → List (σ × Int)) (goal : σ → Bool) (hOpt : Option (σ → Int)) :
    Nat → RunState σ → Except PyErr (Option (RunResult σ))
  | 0, _ => .ok none
  | Nat.succ fuel, st =>
    match selectStep st with
    | none => .ok (some (.failure st))
    | some (x, st1) =>
      if goal x.state then
        .ok (some (.success x ((getpath x).map Node.state) st1))
      else
        match expandStep strat hOpt next x st1.frontier st1.explored st1.count with
        | .error e => .error e
        | .ok r =>
          searchLoop strat next goal hOpt fuel
            { frontier := r.1.frontier, explored := r.1.explored, count := r.2,
              prunes := st1.prunes + r.1.n_prune.length + r.1.f_prune.length +
                r.1.e_prune.length }

/-- The root node created by `main` (line 175–176 of `fsearch.py`):
`Node(s0, None, 0, h(s0))` when a heuristic was supplied, else
`Node(s0, None, 0, None)`; it takes id 1 (the counter starts at 0),
depth 0 and `g = 0`. -/
def rootNode {σ : Type} (s0 : σ) (hOpt : Option (σ → Int)) : Node σ :=
  Node.root 1 s0 0 0 (hOpt.map fun hf => hf s0)

/-- The driver state just after initialization in `main`:
`frontier = [root]`, `explored = []`, `node_count = 1`, `prunes = 0`. -/
def initState {σ : Type} (s0 : σ) (hOpt : Option (σ → Int)) : RunState σ :=
  { frontier := [rootNode s0 hOpt], explored := [], count := 1, prunes := 0 }

/-- Function `main` of `fsearch.py` as a whole (minus instrumentation):
initialize, then run the driver loop. -/
def fsearchMain {σ : Type} [DecidableEq σ] (s0 : σ)
    (next : σ → List (σ × Int)) (goal : σ → Bool) (strat : Strategy)
    (hOpt : Option (σ → Int)) (fuel : Nat) : Except PyErr (Option (RunResult σ)) :=
  searchLoop strat next goal hOpt fuel (initState s0 hOpt)

/-- Scenario A's successor function: `successor_fn(s) = [(s+1,1)]` for
`s < 3`, else `[]`. -/
def chainNext (s : Nat) : List (Nat × Int) :=
  if s < 3 then [(s + 1, 1)] else []

/-- Scenario A's goal test: `goal_fn(s) = (s == 3)`. -/
def chainGoal (s : Nat) : Bool := s == 3

/-- The strict lexicographic order (key, then id) in which the driver
keeps the frontier: Python's stable `sort(key=key_func)` orders the list
by ascending key, and nodes of equal key stay in ascending id order
(older nodes first, and freshly generated nodes carry larger ids). -/
def frontR {σ : Type} (key : Node σ → Int) (a b : Node σ) : Prop :=
  key a < key b ∨ (key a = key b ∧ a.id < b.id)

/-- Invariant of the driver loop of `main`: the frontier is sorted
ascending by the active strategy's key with ties in ascending id order,
and every node held in the frontier or explored lists has an id no larger
than the global `node_count`. -/
def DriverInv {σ : Type} (strat : Strategy) (st : RunState σ) : Prop :=
  st.frontier.Pairwise (frontR (keyFunc strat)) ∧
    ∀ n ∈ st.frontier ++ st.explored, n.id ≤ st.count

/-- Well-formedness of a node with respect to a search problem: a root
carries the initial state at depth 0, and a child node's state is among
the successor states `next` produces for its parent's state, one level
deeper than the parent.  Every node the driver of `fsearch.py` creates
satisfies this by construction. -/
inductive WFNode {σ : Type} (next : σ → List (σ × Int)) (s0 : σ) : Node σ → Prop where
  | root (i : Nat) (g : Int) (h : Option Int) : WFNode next s0 (Node.root i s0 0 g h)
  | child (i : Nat) (s : σ) (g : Int) (h : Option Int) (p : Node σ) (c : Int) :
      WFNode next s0 p → (s, c) ∈ next p.state →
      WFNode next s0 (Node.child i s (p.depth + 1) g h p)

/-- The constant-zero heuristic used by the concrete scenario runs. -/
def zeroH : Nat → Int := fun _ => 0

/-- Node 1 of the uniform-cost run on the linear chain: the root at
state 0. -/
def cNode1 : Node Nat := Node.root 1 0 0 0 (some 0)

/-- Node 2 of the chain run: state 1, `g = 1`. -/
def cNode2 : Node Nat := Node.child 2 1 1 1 (some 0) cNode1

/-- Node 3 of the chain run: state 2, `g = 2`. -/
def cNode3 : Node Nat := Node.child 3 2 2 2 (some 0) cNode2

/-- Node 4 of the chain run: state 3, `g = 3` — the goal node. -/
def cNode4 : Node Nat := Node.child 4 3 3 3 (some 0) cNode3

/-- Final driver state of the chain run: empty frontier, all four nodes
explored, 4 nodes generated, 0 pruned. -/
def chainFinal : RunState Nat :=
  { frontier := [], explored := [cNode1, cNode2, cNode3, cNode4],
    count := 4, prunes := 0 }

/-- Node 1 of a depth-first cycle run (`0 -> 1 -> 2 -> 1`): the root at
state 0.  These four nodes exhibit reopening: when `dNode4` (state 1,
key `-4` under `df`) is generated, the already explored `dNode2`
(state 1, key `-2`) is superseded. -/
def dNode1 : Node Nat := Node.root 1 0 0 0 (some 0)

/-- Node 2 of the cycle run: state 1, depth 1. -/
def dNode2 : Node Nat := Node.child 2 1 1 1 (some 0) dNode1

/-- Node 3 of the cycle run: state 2, depth 2. -/
def dNode3 : Node Nat := Node.child 3 2 2 2 (some 0) dNode2

/-- Node 4 of the cycle run: state 1 again, depth 3 — the reopening
candidate. -/
def dNode4 : Node Nat := Node.child 4 1 3 3 (some 0) dNode3


@[simp] theorem Node.id_root {σ : Type} (i : Nat) (s : σ) (d : Nat) (g : Int)
    (h : Option Int) : (Node.root i s d g h).id = i := rfl

@[simp] theorem Node.id_child {σ : Type} (i : Nat) (s : σ) (d : Nat) (g : Int)
    (h : Option Int) (p : Node σ) : (Node.child i s d g h p).id = i := rfl

@[simp] theorem Node.state_root {σ : Type} (i : Nat) (s : σ) (d : Nat) (g : Int)
    (h : Option Int) : (Node.root i s d g h).state = s := rfl

@[simp] theorem Node.state_child {σ : Type} (i : Nat) (s : σ) (d : Nat) (g : Int)
    (h : Option Int) (p : Node σ) : (Node.child i s d g h p).state = s := rfl

@[simp] theorem Node.depth_root {σ : Type} (i : Nat) (s : σ) (d : Nat) (g : Int)
    (h : Option Int) : (Node.root i s d g h).depth = d := rfl

@[simp] theorem Node.depth_child {σ : Type} (i : Nat) (s : σ) (d : Nat) (g : Int)
    (h : Option Int) (p : Node σ) : (Node.child i s d g h p).depth = d := rfl

@[simp] theorem Node.g_root {σ : Type} (i : Nat) (s : σ) (d : Nat) (g : Int)
    (h : Option Int) : (Node.root i s d g h).g = g := rfl

@[simp] theorem Node.g_child {σ : Type} (i : Nat) (s : σ) (d : Nat) (g : Int)
    (h : Option Int) (p : Node σ) : (Node.child i s d g h p).g = g := rfl

/-- Inserting an element permutes the extended list. -/
theorem insKey_perm {σ : Type} (key : Node σ → Int) (x : Node σ) (l : List (Node σ)) :
    (insKey key x l).Perm (x :: l) := by
  induction l with
  | nil => simp [insKey]
  | cons y l ih =>
    simp only [insKey]
    by_cases hc : key y ≤ key x
    · rw [if_pos hc]
      exact (ih.cons y).trans (List.Perm.swap x y l)
    · rw [if_neg hc]

/-- The stable insertion sort permutes its input. -/
theorem sortKey_perm {σ : Type} (key : Node σ → Int) (l : List (Node σ)) :
    (sortKey key l).Perm l := by
  have H : ∀ (l acc : List (Node σ)),
      (l.foldl (fun a x => insKey key x a) acc).Perm (l ++ acc) := by
    intro l
    induction l with
    | nil => intro acc; simp
    | cons x l ih =>
      intro acc
      simp only [List.foldl_cons]
      refine (ih (insKey key x acc)).trans ?_
      exact (List.Perm.append_left l (insKey_perm key x acc)).trans List.perm_middle
  simpa using H l []

/-- Sorting does not change membership. -/
theorem mem_sortKey {σ : Type} (key : Node σ → Int) (l : List (Node σ)) (a : Node σ) :
    a ∈ sortKey key l ↔ a ∈ l :=
  (sortKey_perm key l).mem_iff

/-- Inserting an element whose id exceeds the id of every equal-key
element preserves the (key, id) lexicographic sortedness. -/
theorem insKey_pairwise {σ : Type} (key : Node σ → Int) (x : Node σ)
    (acc : List (Node σ)) (hacc : acc.Pairwise (frontR key))
    (hid : ∀ y ∈ acc, key y = key x → y.id < x.id) :
    (insKey key x acc).Pairwise (frontR key) := by
  induction acc with
  | nil => simp [insKey]
  | cons y l ih =>
    rcases List.pairwise_cons.mp hacc with ⟨hy, hl⟩
    simp only [insKey]
    by_cases hc : key y ≤ key x
    · rw [if_pos hc]
      refine List.pairwise_cons.mpr ⟨?_, ih hl ?_⟩
      · intro z hz
        rcases List.mem_cons.mp ((insKey_perm key x l).mem_iff.mp hz) with rfl | hzl
        · rcases lt_or_eq_of_le hc with hlt | heq
          · exact Or.inl hlt
          · exact Or.inr ⟨heq, hid y (List.mem_cons_self y l) heq⟩
        · exact hy z hzl
      · intro z hz hk
        exact hid z (List.mem_cons_of_mem y hz) hk
    · rw [if_neg hc]
      push_neg at hc
      refine List.pairwise_cons.mpr ⟨?_, hacc⟩
      intro z hz
      rcases List.mem_cons.mp hz with rfl | hzl
      · exact Or.inl hc
      · rcases hy z hzl with hlt | ⟨heq, _⟩
        · exact Or.inl (hc.trans hlt)
        · exact Or.inl (heq ▸ hc)

/-- A list whose equal-key entries already appear in ascending id order is
sorted by the stable insertion sort into the (key, id) lexicographic
order: this is the stability property of Python's `list.sort`. -/
theorem sortKey_pairwise {σ : Type} (key : Node σ → Int) (l : List (Node σ))
    (hl : l.Pairwise fun a b => key a = key b → a.id < b.id) :
    (sortKey key l).Pairwise (frontR key) := by
  suffices H : ∀ (l acc : List (Node σ)), acc.Pairwise (frontR key) →
      (∀ a ∈ acc, ∀ b ∈ l, key a = key b → a.id < b.id) →
      (l.Pairwise fun a b => key a = key b → a.id < b.id) →
      (l.foldl (fun a x => insKey key x a) acc).Pairwise (frontR key) by
    exact H l [] (by simp) (by simp) hl
  intro l
  induction l with
  | nil =>
    intro acc h _ _
    simpa using h
  | cons x l ih =>
    intro acc hacc hcross hl'
    rcases List.pairwise_cons.mp hl' with ⟨hx, hl''⟩
    simp only [List.foldl_cons]
    refine ih (insKey key x acc) ?_ ?_ hl''
    · exact insKey_pairwise key x acc hacc
        (fun y hy hk => hcross y hy x (List.mem_cons_self x l) hk)
    · intro a ha b hb hk
      rcases List.mem_cons.mp ((insKey_perm key x acc).mem_iff.mp ha) with rfl | ha'
      · exact hx b hb hk
      · exact hcross a ha' b (List.mem_cons_of_mem x hb) hk

/-- Each node creation increments the global counter once: generating the
candidates advances `node_count` by the number of successors. -/
theorem genNew_count {σ : Type} (x : Node σ) (hf : σ → Int) :
    ∀ (succs : List (σ × Int)) (count : Nat),
      (genNew x hf succs count).2 = count + succs.length := by
  intro succs
  induction succs with
  | nil => intro count; simp [genNew]
  | cons sc rest ih =>
    intro count
    cases sc with
    | mk s c =>
      simp only [genNew, ih, List.length_cons]
      omega

/-- Shape of the generated candidates: each one is a child of `x` built
from one successor pair, with a fresh id in `(count, count + |succs|]`. -/
theorem genNew_mem {σ : Type} (x : Node σ) (hf : σ → Int) :
    ∀ (succs : List (σ × Int)) (count : Nat) (n : Node σ),
      n ∈ (genNew x hf succs count).1 →
      ∃ s c i, (s, c) ∈ succs ∧ count < i ∧ i ≤ count + succs.length ∧
        n = Node.child i s (x.depth + 1) (x.g + c) (some (hf s)) x := by
  intro succs
  induction succs with
  | nil => intro count n hn; simp [genNew] at hn
  | cons sc rest ih =>
    intro count n hn
    cases sc with
    | mk s c =>
      simp only [genNew] at hn
      rcases List.mem_cons.mp hn with rfl | hn'
      · exact ⟨s, c, count + 1, by simp, by omega, by simp, rfl⟩
      · obtain ⟨s', c', i, hm, hlt, hle, rfl⟩ := ih (count + 1) n hn'
        exact ⟨s', c', i, by simp [hm], by omega, by simp; omega, rfl⟩

/-- The generated candidates carry strictly increasing ids (creation
order). -/
theorem genNew_ids {σ : Type} (x : Node σ) (hf : σ → Int) :
    ∀ (succs : List (σ × Int)) (count : Nat),
      (genNew x hf succs count).1.Pairwise fun a b => a.id < b.id := by
  intro succs
  induction succs with
  | nil => intro count; simp [genNew]
  | cons sc rest ih =>
    intro count
    cases sc with
    | mk s c =>
      simp only [genNew]
      refine List.pairwise_cons.mpr ⟨?_, ih (count + 1)⟩
      intro b hb
      obtain ⟨s', c', i, _, hlt, _, rfl⟩ := genNew_mem x hf rest (count + 1) b hb
      simpa using by omega

/-- A node in the merged frontier comes from the old frontier or from the
candidate list. -/
theorem expandPrune_mem_frontier {σ : Type} [DecidableEq σ] (strat : Strategy)
    (newL frontier explored : List (Node σ)) (a : Node σ)
    (ha : a ∈ (expandPrune strat newL frontier explored).frontier) :
    a ∈ frontier ∨ a ∈ newL := by
  rcases List.mem_append.mp
      ((mem_sortKey _ _ a).mp ha) with h1 | h2
  · exact Or.inl (List.mem_of_mem_filter h1)
  · exact Or.inr (List.mem_of_mem_filter h2)

/-- A node in the filtered explored list was already explored. -/
theorem expandPrune_mem_explored {σ : Type} [DecidableEq σ] (strat : Strategy)
    (newL frontier explored : List (Node σ)) (a : Node σ)
    (ha : a ∈ (expandPrune strat newL frontier explored).explored) :
    a ∈ explored :=
  List.mem_of_mem_filter ha

/-- Propositional reading of the `n_prune` comprehension condition. -/
theorem nPruneCond_iff {σ : Type} [DecidableEq σ] (strat : Strategy)
    (newL frontier explored : List (Node σ)) (m : Node σ) :
    nPruneCond strat newL frontier explored m = true ↔
      (∃ n ∈ explored, m.state = n.state ∧ keyFunc strat n ≤ keyFunc strat m) ∨
      (∃ n ∈ frontier, m.state = n.state ∧ keyFunc strat n ≤ keyFunc strat m) ∨
      (∃ n ∈ newL, m.state = n.state ∧ keyFunc strat n < keyFunc strat m) ∨
      (∃ n ∈ newL, m.state = n.state ∧ keyFunc strat m = keyFunc strat n ∧
        n.id < m.id) := by
  simp only [nPruneCond, Bool.or_eq_true, List.any_eq_true, Bool.and_eq_true,
    decide_eq_true_eq, and_assoc, or_assoc]

/-- Propositional reading of the `f_prune` / `e_prune` comprehension
condition. -/
theorem supersedeCond_iff {σ : Type} [DecidableEq σ] (strat : Strategy)
    (retained : List (Node σ)) (m : Node σ) :
    supersedeCond strat retained m = true ↔
      ∃ n ∈ retained, m.state = n.state ∧ keyFunc strat n < keyFunc strat m := by
  simp [supersedeCond, List.any_eq_true]

/-- Membership in the retained candidate list. -/
theorem mem_retainedNew {σ : Type} [DecidableEq σ] (strat : Strategy)
    (newL frontier explored : List (Node σ)) (m : Node σ) :
    m ∈ retainedNew strat newL frontier explored ↔
      m ∈ newL ∧ ¬ nPruneCond strat newL frontier explored m = true := by
  simp [retainedNew, List.mem_filter]

/-- Membership in the `n_prune` output list. -/
theorem mem_n_prune {σ : Type} [DecidableEq σ] (strat : Strategy)
    (newL frontier explored : List (Node σ)) (m : Node σ) :
    m ∈ (expandPrune strat newL frontier explored).n_prune ↔
      m ∈ newL ∧ nPruneCond strat newL frontier explored m = true := by
  simp [expandPrune, List.mem_filter]

/-- Path reconstruction on a well-formed node: the state sequence of
`getpath y` has length `y.depth + 1`, starts at the initial state, ends at
`y.state`, and every consecutive pair of states is produced by the
successor function. -/
theorem getpath_spec {σ : Type} (next : σ → List (σ × Int)) (s0 : σ)
    (y : Node σ) (hy : WFNode next s0 y) :
    ((getpath y).map Node.state).length = y.depth + 1 ∧
    ((getpath y).map Node.state).head? = some s0 ∧
    ((getpath y).map Node.state).getLast? = some y.state ∧
    List.Chain' (fun a b => ∃ c, (b, c) ∈ next a) ((getpath y).map Node.state) := by
  induction hy with
  | root i g h => simp [getpath]
  | child i s g h p c hp hs ih =>
    obtain ⟨ihlen, ihhead, ihlast, ihchain⟩ := ih
    have hmap : (getpath (Node.child i s (p.depth + 1) g h p)).map Node.state =
        (getpath p).map Node.state ++ [s] := by
      simp [getpath]
    refine ⟨?_, ?_, ?_, ?_⟩
    · rw [hmap]
      simp only [List.length_append, List.length_cons, List.length_nil, ihlen]
      simp
    · rw [hmap]
      obtain ⟨t, ht⟩ : ∃ t, (getpath p).map Node.state = s0 :: t := by
        cases hmp : (getpath p).map Node.state with
        | nil => rw [hmp] at ihhead; simp at ihhead
        | cons a t =>
          rw [hmp] at ihhead
          simp only [List.head?_cons, Option.some.injEq] at ihhead
          exact ⟨t, by rw [ihhead]⟩
      rw [ht]
      simp
    · rw [hmap]
      simp [List.getLast?_concat]
    · rw [hmap]
      refine List.chain'_append.mpr ⟨ihchain, by simp, ?_⟩
      intro a ha b hb
      rw [ihlast] at ha
      simp only [Option.mem_def, Option.some.injEq] at ha
      simp only [List.head?_cons, Option.mem_def, Option.some.injEq] at hb
      subst ha
      subst hb
      exact ⟨c, hs⟩

/-- Every node placed into the frontier by one expansion is well-formed,
provided the popped node and the previous frontier are. -/
theorem expandStep_frontier_WF {σ : Type} [DecidableEq σ] (strat : Strategy)
    (hOpt : Option (σ → Int)) (next : σ → List (σ × Int)) (s0 : σ) (x : Node σ)
    (frontier explored : List (Node σ)) (count : Nat) (out : ExpandOut σ)
    (count' : Nat)
    (hfr : ∀ n ∈ frontier, WFNode next s0 n) (hx : WFNode next s0 x)
    (hstep : expandStep strat hOpt next x frontier explored count = .ok (out, count')) :
    ∀ n ∈ out.frontier, WFNode next s0 n := by
  have main : ∀ (newL : List (Node σ)),
      (∀ n ∈ newL, WFNode next s0 n) →
      out = expandPrune strat newL frontier explored →
      ∀ n ∈ out.frontier, WFNode next s0 n := by
    intro newL hnewL hout n hn
    subst hout
    rcases expandPrune_mem_frontier strat newL frontier explored n hn with h1 | h2
    · exact hfr n h1
    · exact hnewL n h2
  cases hOpt with
  | some hf =>
    simp only [expandStep, Except.ok.injEq, Prod.mk.injEq] at hstep
    refine main (genNew x hf (next x.state) count).1 ?_ hstep.1.symm
    intro n hn
    obtain ⟨s, c, i, hm, _, _, rfl⟩ := genNew_mem x hf (next x.state) count n hn
    exact WFNode.child i s (x.g + c) (some (hf s)) x c hx hm
  | none =>
    cases hnx : next x.state with
    | nil =>
      simp only [expandStep, hnx, Except.ok.injEq, Prod.mk.injEq] at hstep
      refine main [] ?_ hstep.1.symm
      intro n hn
      simp at hn
    | cons a l =>
      simp [expandStep, hnx] at hstep

/-- If the driver loop reports success, the goal node is well-formed, the
returned state list is the reconstruction of its path, and its state
satisfies the goal test. -/
theorem searchLoop_success_WF {σ : Type} [DecidableEq σ] (strat : Strategy)
    (next : σ → List (σ × Int)) (goal : σ → Bool) (hOpt : Option (σ → Int))
    (s0 : σ) :
    ∀ (fuel : Nat) (st : RunState σ) (y : Node σ) (path : List σ)
      (fst : RunState σ),
      (∀ n ∈ st.frontier, WFNode next s0 n) →
      searchLoop strat next goal hOpt fuel st = .ok (some (.success y path fst)) →
      WFNode next s0 y ∧ path = (getpath y).map Node.state ∧
        goal y.state = true := by
  intro fuel
  induction fuel with
  | zero =>
    intro st y path fst _ h
    simp [searchLoop] at h
  | succ fuel ih =>
    intro st y path fst hwf h
    cases hf : st.frontier with
    | nil =>
      simp [searchLoop, selectStep, hf] at h
    | cons x rest =>
      have hxwf : WFNode next s0 x := hwf x (by rw [hf]; exact List.mem_cons_self x rest)
      have hrest : ∀ n ∈ rest, WFNode next s0 n := by
        intro n hn
        exact hwf n (by rw [hf]; exact List.mem_cons_of_mem x hn)
      simp only [searchLoop, selectStep, hf] at h
      by_cases hg : goal x.state = true
      · rw [if_pos hg] at h
        simp only [Except.ok.injEq, Option.some.injEq, RunResult.success.injEq] at h
        obtain ⟨rfl, rfl, rfl⟩ := h
        exact ⟨hxwf, rfl, hg⟩
      · rw [if_neg hg] at h
        cases hstep : expandStep strat hOpt next x rest (st.explored ++ [x]) st.count with
        | error e => rw [hstep] at h; simp at h
        | ok r =>
          rw [hstep] at h
          refine ih _ y path fst ?_ h
          exact expandStep_frontier_WF strat hOpt next s0 x rest (st.explored ++ [x])
            st.count r.1 r.2 hrest hxwf (by rw [hstep])

/-- Every nonempty node list has a (key, id)-lexicographically minimal
element. -/
theorem exists_lex_min {σ : Type} (key : Node σ → Int) :
    ∀ (l : List (Node σ)), l ≠ [] →
      ∃ cs ∈ l, ∀ n ∈ l, key cs ≤ key n ∧ (key cs = key n → cs.id ≤ n.id) := by
  intro l
  induction l with
  | nil => intro h; exact absurd rfl h
  | cons a t ih =>
    intro _
    cases t with
    | nil =>
      refine ⟨a, List.mem_cons_self a [], ?_⟩
      intro n hn
      rcases List.mem_cons.mp hn with rfl | hn'
      · exact ⟨le_refl _, fun _ => le_refl _⟩
      · simp at hn'
    | cons b t' =>
      obtain ⟨c, hcmem, hcmin⟩ := ih (by simp)
      by_cases hfirst : key a < key c ∨ (key a = key c ∧ a.id ≤ c.id)
      · refine ⟨a, List.mem_cons_self a (b :: t'), ?_⟩
        intro n hn
        rcases List.mem_cons.mp hn with rfl | hn'
        · exact ⟨le_refl _, fun _ => le_refl _⟩
        · obtain ⟨h1, h2⟩ := hcmin n hn'
          rcases hfirst with hlt | ⟨heq, hid⟩
          · constructor
            · exact le_of_lt (lt_of_lt_of_le hlt h1)
            · intro hk
              exact absurd (hk ▸ lt_of_lt_of_le hlt h1) (lt_irrefl _)
          · constructor
            · exact heq ▸ h1
            · intro hk
              exact le_trans hid (h2 (heq.symm.trans hk))
      · push_neg at hfirst
        obtain ⟨hle, hid⟩ := hfirst
        refine ⟨c, List.mem_cons_of_mem a hcmem, ?_⟩
        intro n hn
        rcases List.mem_cons.mp hn with rfl | hn'
        · constructor
          · exact hle
          · intro hk
            exact le_of_lt (hid hk.symm)
        · exact hcmin n hn'

/-- One pruning step keeps the frontier lexicographically sorted and keeps
all held ids bounded by the (possibly advanced) node counter, provided the
candidates carry fresh, increasing ids. -/
theorem expandPrune_inv {σ : Type} [DecidableEq σ] (strat : Strategy)
    (newL frontier explored : List (Node σ)) (count count' : Nat)
    (hfr : frontier.Pairwise (frontR (keyFunc strat)))
    (hids : ∀ n ∈ frontier ++ explored, n.id ≤ count)
    (hnewIds : newL.Pairwise fun a b => a.id < b.id)
    (hnewLow : ∀ n ∈ newL, count < n.id ∧ n.id ≤ count')
    (hcc : count ≤ count') :
    (expandPrune strat newL frontier explored).frontier.Pairwise
      (frontR (keyFunc strat)) ∧
    ∀ n ∈ (expandPrune strat newL frontier explored).frontier ++
        (expandPrune strat newL frontier explored).explored, n.id ≤ count' := by
  have hfr1 : ∀ n ∈ frontier, n.id ≤ count := by
    intro n hn
    exact hids n (List.mem_append_left _ hn)
  have hex1 : ∀ n ∈ explored, n.id ≤ count := by
    intro n hn
    exact hids n (List.mem_append_right _ hn)
  constructor
  · apply sortKey_pairwise
    rw [List.pairwise_append]
    refine ⟨?_, ?_, ?_⟩
    · refine List.Pairwise.imp ?_ (hfr.sublist (List.filter_sublist frontier))
      intro a b hab hk
      rcases hab with hlt | ⟨heq, hid⟩
      · exact absurd (hk ▸ hlt) (lt_irrefl _)
      · exact hid
    · refine List.Pairwise.imp ?_ (hnewIds.sublist (List.filter_sublist newL))
      intro a b hab _
      exact hab
    · intro a ha b hb _
      have ha' : a.id ≤ count := hfr1 a (List.mem_of_mem_filter ha)
      have hb' : count < b.id := (hnewLow b (List.mem_of_mem_filter hb)).1
      omega
  · intro n hn
    rcases List.mem_append.mp hn with h1 | h2
    · rcases expandPrune_mem_frontier strat newL frontier explored n h1 with hf | hnw
      · exact le_trans (hfr1 n hf) hcc
      · exact (hnewLow n hnw).2
    · exact le_trans (hex1 n (expandPrune_mem_explored strat newL frontier explored n h2)) hcc

/-- C7: for every Success result with goal node `y`, the returned state
sequence has length `y.depth + 1`, begins at the initial state, ends at
`y`'s state, which satisfies the goal predicate, and every consecutive
pair of states is among the pairs the successor function produces for the
first element of the pair. -/
theorem C7_path_validity {σ : Type} [DecidableEq σ] (s0 : σ)
    (next : σ → List (σ × Int)) (goal : σ → Bool) (strat : Strategy)
    (hOpt : Option (σ → Int)) (fuel : Nat) (y : Node σ) (path : List σ)
    (fst : RunState σ)
    (hrun : fsearchMain s0 next goal strat hOpt fuel =
      .ok (some (.success y path fst))) :
    path.length = y.depth + 1 ∧ path.head? = some s0 ∧
    path.getLast? = some y.state ∧ goal y.state = true ∧
    path.Chain' fun a b => ∃ c, (b, c) ∈ next a := by
  have hwf0 : ∀ n ∈ (initState s0 hOpt).frontier, WFNode next s0 n := by
    intro n hn
    simp only [initState, List.mem_singleton] at hn
    subst hn
    exact WFNode.root 1 0 (hOpt.map fun hf => hf s0)
  obtain ⟨hywf, rfl, hgoal⟩ :=
    searchLoop_success_WF strat next goal hOpt s0 fuel _ y path fst hwf0 hrun
  obtain ⟨hlen, hhead, hlast, hchain⟩ := getpath_spec next s0 y hywf
  exact ⟨hlen, hhead, hlast, hgoal, hchain⟩

/-- Witness for C7: the uniform-cost run on the linear chain (with a
heuristic supplied so that the run completes) returns `[0,1,2,3]`, whose
length is the goal node's depth plus one, which starts at the initial
state 0, ends at the goal state 3, and follows the successor function. -/
theorem C7_path_validity_witness :
    ([0, 1, 2, 3] : List Nat).length = cNode4.depth + 1 ∧
    ([0, 1, 2, 3] : List Nat).head? = some 0 ∧
    ([0, 1, 2, 3] : List Nat).getLast? = some cNode4.state ∧
    chainGoal cNode4.state = true ∧
    ([0, 1, 2, 3] : List Nat).Chain' fun a b => ∃ c, (b, c) ∈ chainNext a :=
  C7_path_validity 0 chainNext chainGoal .uc (some zeroH) 10 cNode4
    [0, 1, 2, 3] chainFinal rfl

/-- C6 counterexample: on the successful uniform-cost chain run the value
handed back to the caller is exactly the bare list of states
`[0, 1, 2, 3]` (the `PyRet` type of caller-visible returns of `main` has
no component for the generated / pruned / explored / frontier counts or
the cost: `finish` only prints them and returns the state list), so the
claim that the counts are returned to the caller is false. -/
theorem C6_counterexample :
    (fsearchMain 0 chainNext chainGoal .uc (some zeroH) 10).map
      (fun o => o.map pyValue) = .ok (some (PyRet.pathList [0, 1, 2, 3])) := rfl

/-- C6 (amended): on Success the search returns to the caller only the
reconstructed path — the list of states of `getpath` applied to the goal
node; the counts are printed, not returned. -/
theorem C6_success_returns_path {σ : Type} [DecidableEq σ] (s0 : σ)
    (next : σ → List (σ × Int)) (goal : σ → Bool) (strat : Strategy)
    (hOpt : Option (σ → Int)) (fuel : Nat) (y : Node σ) (path : List σ)
    (fst : RunState σ)
    (hrun : fsearchMain s0 next goal strat hOpt fuel =
      .ok (some (.success y path fst))) :
    pyValue (RunResult.success y path fst) = PyRet.pathList path ∧
    path = (getpath y).map Node.state := by
  have hwf0 : ∀ n ∈ (initState s0 hOpt).frontier, WFNode next s0 n := by
    intro n hn
    simp only [initState, List.mem_singleton] at hn
    subst hn
    exact WFNode.root 1 0 (hOpt.map fun hf => hf s0)
  obtain ⟨_, hpath, _⟩ :=
    searchLoop_success_WF strat next goal hOpt s0 fuel _ y path fst hwf0 hrun
  exact ⟨rfl, hpath⟩

/-- Witness for the amended C6, at the concrete chain run. -/
theorem C6_success_returns_path_witness :
    pyValue (RunResult.success cNode4 [0, 1, 2, 3] chainFinal) =
      PyRet.pathList [0, 1, 2, 3] ∧
    ([0, 1, 2, 3] : List Nat) = (getpath cNode4).map Node.state :=
  C6_success_returns_path 0 chainNext chainGoal .uc (some zeroH) 10 cNode4
    [0, 1, 2, 3] chainFinal rfl

/-- C5: Scenario A run exactly as the code executes it.  With `h = None`
(the scenario's configuration) the run raises `TypeError` at the first
expansion, because line 116 of `fsearch.py` calls `h(s)` unconditionally;
with any heuristic supplied instead, the run does return the path
`[0, 1, 2, 3]` with cost 3, 4 generated nodes, 0 pruned (the values the
scenario expects, which demonstrates the scenario's expected numbers are
what the search produces once `h` is callable). -/
theorem C5_chain_uc_run :
    fsearchMain 0 chainNext chainGoal .uc none 10 =
      .error PyErr.noneNotCallable ∧
    fsearchMain 0 chainNext chainGoal .uc (some zeroH) 10 =
      .ok (some (.success cNode4 [0, 1, 2, 3] chainFinal)) ∧
    cNode4.g = 3 ∧ chainFinal.count = 4 ∧ chainFinal.prunes = 0 :=
  ⟨rfl, rfl, rfl, rfl, rfl⟩

/-- C4: with a heuristic-dependent strategy (`gbf`) selected and no
heuristic supplied, the code does not fail fast before node creation: if
the initial state is a goal the search happily succeeds (the root node is
created); otherwise the run dies with a `TypeError` when `expand` first
calls the absent heuristic.  Moreover the h-independent strategies `bf`,
`df`, `uc` do not run normally without a heuristic either: they raise the
same `TypeError` at the first expansion. -/
theorem C4_no_fail_fast :
    fsearchMain (0 : Nat) chainNext (fun s => s == 0) .gbf none 10 =
      .ok (some (.success (rootNode 0 none) [0]
        { frontier := [], explored := [rootNode 0 none],
          count := 1, prunes := 0 })) ∧
    fsearchMain 0 chainNext chainGoal .gbf none 10 =
      .error PyErr.noneNotCallable ∧
    fsearchMain 0 chainNext chainGoal .astar none 10 =
      .error PyErr.noneNotCallable ∧
    fsearchMain 0 chainNext chainGoal .bf none 10 =
      .error PyErr.noneNotCallable ∧
    fsearchMain 0 chainNext chainGoal .df none 10 =
      .error PyErr.noneNotCallable :=
  ⟨rfl, rfl, rfl, rfl, rfl⟩

/-- C9: with a successor function that always returns `[]` and an
always-false goal test, the search terminates by returning the explicit
no-solution indicator (`False`, embedded as `RunResult.failure` — not an
exception) with exactly 1 node generated (the root), explored size 1 and
frontier size 0, for every strategy and optional heuristic. -/
theorem C9_failure_no_solution {σ : Type} [DecidableEq σ] (s0 : σ)
    (strat : Strategy) (hOpt : Option (σ → Int)) (fuel : Nat) :
    fsearchMain s0 (fun _ => []) (fun _ => false) strat hOpt (fuel + 2) =
      .ok (some (.failure
        { frontier := [], explored := [rootNode s0 hOpt],
          count := 1, prunes := 0 })) := by
  cases hOpt with
  | none => rfl
  | some hf => rfl

/-- Witness for C9 at a concrete instance. -/
theorem C9_failure_no_solution_witness :
    fsearchMain (0 : Nat) (fun _ => []) (fun _ => false) .uc none 2 =
      .ok (some (.failure
        { frontier := [], explored := [rootNode 0 none],
          count := 1, prunes := 0 })) :=
  C9_failure_no_solution 0 .uc none 0

/-- C10: if the goal predicate already holds for the initial state, the
search immediately returns the single-element path `[s0]` with exactly one
node created (the root) and nothing explored or pruned; the right-hand
side mentions neither the successor function nor the heuristic beyond
`hOpt.map (fun hf => hf s0)` inside `rootNode`, so the successor
generator and the expansion / pruning step are never invoked and the
heuristic is evaluated only on `s0`. -/
theorem C10_goal_at_root {σ : Type} [DecidableEq σ] (s0 : σ)
    (next : σ → List (σ × Int)) (goal : σ → Bool) (strat : Strategy)
    (hOpt : Option (σ → Int)) (fuel : Nat) (hg : goal s0 = true) :
    fsearchMain s0 next goal strat hOpt (fuel + 1) =
      .ok (some (.success (rootNode s0 hOpt) [s0]
        { frontier := [], explored := [rootNode s0 hOpt],
          count := 1, prunes := 0 })) := by
  simp only [fsearchMain, initState, searchLoop, selectStep, rootNode]
  simp only [Node.state_root, hg, if_true]
  simp [getpath, initState, rootNode]

/-- Witness for C10 at a concrete instance. -/
theorem C10_goal_at_root_witness :
    fsearchMain (0 : Nat) chainNext (fun s => s == 0) .uc none 1 =
      .ok (some (.success (rootNode 0 none) [0]
        { frontier := [], explored := [rootNode 0 none],
          count := 1, prunes := 0 })) :=
  C10_goal_at_root 0 chainNext (fun s => s == 0) .uc none 0 rfl

/-- C1: in every call to `expand`, a candidate `m` of `new` is
new-pruned if and only if (a) some explored node shares its state with key
`≤ key m`, or (b) some frontier node does, or (c) another new candidate
shares its state with a strictly lower key, or (d) another new candidate
shares its state with an equal key and a lower id; and every surviving
candidate is merged into the returned frontier. -/
theorem C1_new_prune_rule {σ : Type} [DecidableEq σ] (strat : Strategy)
    (newL frontier explored : List (Node σ)) :
    (∀ m ∈ newL,
      (m ∈ (expandPrune strat newL frontier explored).n_prune ↔
        (∃ n ∈ explored, m.state = n.state ∧
          keyFunc strat n ≤ keyFunc strat m) ∨
        (∃ n ∈ frontier, m.state = n.state ∧
          keyFunc strat n ≤ keyFunc strat m) ∨
        (∃ n ∈ newL, m.state = n.state ∧
          keyFunc strat n < keyFunc strat m) ∨
        (∃ n ∈ newL, m.state = n.state ∧
          keyFunc strat m = keyFunc strat n ∧ n.id < m.id))) ∧
    (∀ m ∈ newL, m ∉ (expandPrune strat newL frontier explored).n_prune →
      m ∈ (expandPrune strat newL frontier explored).frontier) := by
  constructor
  · intro m hm
    rw [mem_n_prune, and_iff_right hm]
    exact nPruneCond_iff strat newL frontier explored m
  · intro m hm hnp
    have hcond : ¬ nPruneCond strat newL frontier explored m = true := by
      intro hc
      exact hnp ((mem_n_prune strat newL frontier explored m).mpr ⟨hm, hc⟩)
    have hret : m ∈ retainedNew strat newL frontier explored :=
      (mem_retainedNew strat newL frontier explored m).mpr ⟨hm, hcond⟩
    exact (mem_sortKey _ _ m).mpr (List.mem_append_right _ hret)

/-- Witness for C1: a lone candidate against a non-conflicting explored
node is not pruned and lands in the returned frontier. -/
theorem C1_new_prune_rule_witness :
    (cNode2 ∈ (expandPrune .uc [cNode2] [] [cNode1]).n_prune ↔
      (∃ n ∈ [cNode1], cNode2.state = n.state ∧
        keyFunc .uc n ≤ keyFunc .uc cNode2) ∨
      (∃ n ∈ ([] : List (Node Nat)), cNode2.state = n.state ∧
        keyFunc .uc n ≤ keyFunc .uc cNode2) ∨
      (∃ n ∈ [cNode2], cNode2.state = n.state ∧
        keyFunc .uc n < keyFunc .uc cNode2) ∨
      (∃ n ∈ [cNode2], cNode2.state = n.state ∧
        keyFunc .uc cNode2 = keyFunc .uc n ∧ n.id < cNode2.id)) ∧
    cNode2 ∈ (expandPrune .uc [cNode2] [] [cNode1]).frontier :=
  ⟨(C1_new_prune_rule .uc [cNode2] [] [cNode1]).1 cNode2 (by simp),
   (C1_new_prune_rule .uc [cNode2] [] [cNode1]).2 cNode2 (by simp) (by decide)⟩

/-- C2: in every call to `expand`, a frontier node is frontier-pruned iff
a retained new candidate shares its state with a strictly lower key, and
an explored node is explored-pruned (reopened) iff a retained new
candidate shares its state with a strictly lower key; consequently, when a
state held by an explored node (the best for its state among the current
explored and frontier nodes) receives a freshly generated candidate with a
strictly lower key, the explored node is removed from explored and a node
with that state and a strictly lower key is present in the returned
frontier — i.e. by the next Selecting phase. -/
theorem C2_reopening_rule {σ : Type} [DecidableEq σ] (strat : Strategy)
    (newL frontier explored : List (Node σ)) :
    (∀ m ∈ frontier,
      (m ∈ (expandPrune strat newL frontier explored).f_prune ↔
        ∃ n ∈ (expandPrune strat newL frontier explored).new,
          m.state = n.state ∧ keyFunc strat n < keyFunc strat m)) ∧
    (∀ m ∈ explored,
      (m ∈ (expandPrune strat newL frontier explored).e_prune ↔
        ∃ n ∈ (expandPrune strat newL frontier explored).new,
          m.state = n.state ∧ keyFunc strat n < keyFunc strat m)) ∧
    (∀ m ∈ explored, ∀ cand ∈ newL,
      cand.state = m.state → keyFunc strat cand < keyFunc strat m →
      (∀ n ∈ explored, n.state = m.state →
        keyFunc strat m ≤ keyFunc strat n) →
      (∀ n ∈ frontier, n.state = m.state →
        keyFunc strat m ≤ keyFunc strat n) →
      m ∉ (expandPrune strat newL frontier explored).explored ∧
      ∃ n ∈ (expandPrune strat newL frontier explored).frontier,
        n.state = m.state ∧ keyFunc strat n < keyFunc strat m) := by
  refine ⟨?_, ?_, ?_⟩
  · intro m hm
    show m ∈ frontier.filter _ ↔ _
    rw [List.mem_filter, and_iff_right hm]
    exact supersedeCond_iff strat _ m
  · intro m hm
    show m ∈ explored.filter _ ↔ _
    rw [List.mem_filter, and_iff_right hm]
    exact supersedeCond_iff strat _ m
  · intro m hm cand hcand hcs hck hexp hfro
    have key := keyFunc strat (σ := σ)
    set S := newL.filter (fun n => decide (n.state = m.state)) with hS
    have hcandS : cand ∈ S := by
      rw [hS, List.mem_filter]
      exact ⟨hcand, by simp [hcs]⟩
    obtain ⟨cs, hcsS, hcsmin⟩ :=
      exists_lex_min (keyFunc strat) S (by intro h; rw [h] at hcandS; simp at hcandS)
    have hcsnew : cs ∈ newL := List.mem_of_mem_filter hcsS
    have hcsst : cs.state = m.state := by
      have := (List.mem_filter.mp hcsS).2
      simpa using this
    have hcsle : keyFunc strat cs ≤ keyFunc strat cand := (hcsmin cand hcandS).1
    have hcslt : keyFunc strat cs < keyFunc strat m := lt_of_le_of_lt hcsle hck
    have hcsret : cs ∈ retainedNew strat newL frontier explored := by
      rw [mem_retainedNew]
      refine ⟨hcsnew, ?_⟩
      rw [nPruneCond_iff]
      rintro (⟨n, hn, hst, hkey⟩ | ⟨n, hn, hst, hkey⟩ |
        ⟨n, hn, hst, hkey⟩ | ⟨n, hn, hst, hkey, hid⟩)
      · have hnm : n.state = m.state := hst ▸ hcsst
        have := hexp n hn hnm
        omega
      · have hnm : n.state = m.state := hst ▸ hcsst
        have := hfro n hn hnm
        omega
      · have hnS : n ∈ S := by
          rw [hS, List.mem_filter]
          exact ⟨hn, by simp [hst ▸ hcsst]⟩
        have := (hcsmin n hnS).1
        omega
      · have hnS : n ∈ S := by
          rw [hS, List.mem_filter]
          exact ⟨hn, by simp [hst ▸ hcsst]⟩
        have := (hcsmin n hnS).2 hkey
        omega
    have hsup : supersedeCond strat
        (retainedNew strat newL frontier explored) m = true := by
      rw [supersedeCond_iff]
      exact ⟨cs, hcsret, hcsst.symm, hcslt⟩
    constructor
    · intro hmem
      have := (List.mem_filter.mp hmem).2
      rw [hsup] at this
      simp at this
    · refine ⟨cs, ?_, hcsst, hcslt⟩
      exact (mem_sortKey _ _ cs).mpr (List.mem_append_right _ hcsret)

/-- Witness for C2: in the depth-first cycle, the new candidate `dNode4`
(state 1, key `-4`) supersedes the explored `dNode2` (state 1, key `-2`):
`dNode2` leaves the explored list and `dNode4` enters the frontier. -/
theorem C2_reopening_rule_witness :
    dNode2 ∉ (expandPrune .df [dNode4] [] [dNode1, dNode2]).explored ∧
    ∃ n ∈ (expandPrune .df [dNode4] [] [dNode1, dNode2]).frontier,
      n.state = dNode2.state ∧ keyFunc .df n < keyFunc .df dNode2 :=
  (C2_reopening_rule .df [dNode4] [] [dNode1, dNode2]).2.2 dNode2 (by decide)
    dNode4 (by decide) (by decide) (by decide) (by decide) (by decide)

/-- C3: if no two distinct nodes of `frontier ++ explored` share a state
(and the fresh candidates carry distinct ids, as they always do by
construction), then after the pruning of one expansion no two distinct
nodes of the returned `frontier ++ explored` share a state; and the
Selecting move (popping the frontier head into explored) trivially
preserves the same property, since it only moves a node across the
union. -/
theorem C3_no_duplicate_survivors {σ : Type} [DecidableEq σ] (strat : Strategy)
    (newL frontier explored : List (Node σ))
    (hids : newL.Pairwise fun a b => a.id ≠ b.id)
    (hst : (frontier ++ explored).Pairwise fun a b => a.state ≠ b.state) :
    (((expandPrune strat newL frontier explored).frontier ++
        (expandPrune strat newL frontier explored).explored).Pairwise
      fun a b => a.state ≠ b.state) ∧
    ∀ (st : RunState σ) (x : Node σ) (st1 : RunState σ),
      selectStep st = some (x, st1) →
      ((st.frontier ++ st.explored).Pairwise fun a b => a.state ≠ b.state) →
      ((st1.frontier ++ st1.explored).Pairwise fun a b => a.state ≠ b.state) := by
  have hsymm : ∀ {a b : Node σ}, a.state ≠ b.state → b.state ≠ a.state :=
    fun h => h.symm
  constructor
  · have hperm : ((expandPrune strat newL frontier explored).frontier ++
        (expandPrune strat newL frontier explored).explored).Perm
        (((frontier.filter fun m =>
            ! supersedeCond strat (retainedNew strat newL frontier explored) m) ++
          retainedNew strat newL frontier explored) ++
          (expandPrune strat newL frontier explored).explored) :=
      (sortKey_perm _ _).append_right _
    rw [hperm.pairwise_iff hsymm]
    have hfrontPW : frontier.Pairwise fun a b => a.state ≠ b.state :=
      (List.pairwise_append.mp hst).1
    have hexpPW : explored.Pairwise fun a b => a.state ≠ b.state :=
      (List.pairwise_append.mp hst).2.1
    have hcrossFE : ∀ a ∈ frontier, ∀ b ∈ explored, a.state ≠ b.state :=
      (List.pairwise_append.mp hst).2.2
    -- facts about retained candidates
    have hsurv : ∀ b ∈ retainedNew strat newL frontier explored,
        b ∈ newL ∧
        (¬ ∃ n ∈ explored, b.state = n.state ∧
          keyFunc strat n ≤ keyFunc strat b) ∧
        (¬ ∃ n ∈ frontier, b.state = n.state ∧
          keyFunc strat n ≤ keyFunc strat b) ∧
        (¬ ∃ n ∈ newL, b.state = n.state ∧
          keyFunc strat n < keyFunc strat b) ∧
        (¬ ∃ n ∈ newL, b.state = n.state ∧
          keyFunc strat b = keyFunc strat n ∧ n.id < b.id) := by
      intro b hb
      obtain ⟨hbn, hbc⟩ := (mem_retainedNew strat newL frontier explored b).mp hb
      rw [nPruneCond_iff] at hbc
      push_neg at hbc
      obtain ⟨h1, h2, h3, h4⟩ := hbc
      refine ⟨hbn, ?_, ?_, ?_, ?_⟩
      · rintro ⟨n, hn, hs, hk⟩; exact absurd hk (by have := h1 n hn hs; omega)
      · rintro ⟨n, hn, hs, hk⟩; exact absurd hk (by have := h2 n hn hs; omega)
      · rintro ⟨n, hn, hs, hk⟩; exact absurd hk (by have := h3 n hn hs; omega)
      · rintro ⟨n, hn, hs, hk, hi⟩; exact absurd hi (by have := h4 n hn hs hk; omega)
    have hnotSupF : ∀ a, a ∈ (frontier.filter fun m =>
        ! supersedeCond strat (retainedNew strat newL frontier explored) m) →
        ¬ ∃ n ∈ retainedNew strat newL frontier explored,
          a.state = n.state ∧ keyFunc strat n < keyFunc strat a := by
      intro a ha hex
      have hb := (List.mem_filter.mp ha).2
      rw [Bool.not_eq_eq_eq_not, Bool.not_true] at hb
      rw [← supersedeCond_iff strat _ a] at hex
      rw [hb] at hex
      exact Bool.false_ne_true hex
    have hnotSupE : ∀ b, b ∈ (expandPrune strat newL frontier explored).explored →
        ¬ ∃ n ∈ retainedNew strat newL frontier explored,
          b.state = n.state ∧ keyFunc strat n < keyFunc strat b := by
      intro b hb hex
      have hb2 := (List.mem_filter.mp hb).2
      rw [Bool.not_eq_eq_eq_not, Bool.not_true] at hb2
      rw [← supersedeCond_iff strat _ b] at hex
      rw [hb2] at hex
      exact Bool.false_ne_true hex
    rw [List.pairwise_append]
    refine ⟨?_, ?_, ?_⟩
    · rw [List.pairwise_append]
      refine ⟨hfrontPW.sublist (List.filter_sublist frontier), ?_, ?_⟩
      · -- retained candidates pairwise have distinct states
        refine List.Pairwise.imp_of_mem ?_
          (hids.sublist (List.filter_sublist newL))
        intro a b ha hb hab hstate
        obtain ⟨_, _, _, hc3a, hc4a⟩ := hsurv a ha
        obtain ⟨hbn, _, _, hc3b, hc4b⟩ := hsurv b hb
        have han := (hsurv a ha).1
        have hk1 : ¬ keyFunc strat b < keyFunc strat a :=
          fun hk => hc3a ⟨b, hbn, hstate, hk⟩
        have hk2 : ¬ keyFunc strat a < keyFunc strat b :=
          fun hk => hc3b ⟨a, han, hstate.symm, hk⟩
        have hkeq : keyFunc strat a = keyFunc strat b := by omega
        have hi1 : ¬ b.id < a.id := fun hi => hc4a ⟨b, hbn, hstate, hkeq, hi⟩
        have hi2 : ¬ a.id < b.id :=
          fun hi => hc4b ⟨a, han, hstate.symm, hkeq.symm, hi⟩
        exact hab (by omega)
      · -- filtered frontier vs retained candidates
        intro a ha b hb
        intro hstate
        obtain ⟨_, _, hbf, _, _⟩ := hsurv b hb
        have haf : a ∈ frontier := List.mem_of_mem_filter ha
        by_cases hk : keyFunc strat a ≤ keyFunc strat b
        · exact hbf ⟨a, haf, hstate.symm, hk⟩
        · push_neg at hk
          exact hnotSupF a ha ⟨b, hb, hstate, hk⟩
    · exact hexpPW.sublist (List.filter_sublist explored)
    · -- merged frontier vs filtered explored
      intro a ha b hb
      have hbe : b ∈ explored := List.mem_of_mem_filter hb
      rcases List.mem_append.mp ha with haf | har
      · exact hcrossFE a (List.mem_of_mem_filter haf) b hbe
      · intro hstate
        obtain ⟨_, hbe', _, _, _⟩ := hsurv a har
        by_cases hk : keyFunc strat b ≤ keyFunc strat a
        · exact hbe' ⟨b, hbe, hstate, hk⟩
        · push_neg at hk
          exact hnotSupE b hb ⟨a, har, hstate.symm, hk⟩
  · intro st x st1 hsel hpw
    unfold selectStep at hsel
    cases hf : st.frontier with
    | nil => rw [hf] at hsel; exact absurd hsel (by simp)
    | cons y rest =>
      rw [hf] at hsel
      simp only [Option.some.injEq, Prod.mk.injEq] at hsel
      obtain ⟨rfl, rfl⟩ := hsel
      rw [hf] at hpw
      have hperm : (rest ++ (st.explored ++ [y])).Perm
          ((y :: rest) ++ st.explored) := by
        rw [← List.append_assoc]
        exact List.perm_append_singleton y (rest ++ st.explored)
      exact (hperm.pairwise_iff hsymm).mpr hpw

/-- Witness for C3, at a concrete expansion and a concrete Selecting
move. -/
theorem C3_no_duplicate_survivors_witness :
    (((expandPrune .uc [cNode2] [] [cNode1]).frontier ++
        (expandPrune .uc [cNode2] [] [cNode1]).explored).Pairwise
      fun a b => a.state ≠ b.state) ∧
    (((⟨[], [cNode1], 1, 0⟩ : RunState Nat).frontier ++
        (⟨[], [cNode1], 1, 0⟩ : RunState Nat).explored).Pairwise
      fun a b => a.state ≠ b.state) :=
  ⟨(C3_no_duplicate_survivors .uc [cNode2] [] [cNode1] (by simp)
      (by simp)).1,
   (C3_no_duplicate_survivors .uc [cNode2] [] [cNode1] (by simp)
      (by simp)).2
    (⟨[cNode1], [], 1, 0⟩ : RunState Nat) cNode1
    (⟨[], [cNode1], 1, 0⟩ : RunState Nat) rfl (by simp)⟩

/-- C8: invariant of the driver loop.  (1) The initial state satisfies the
invariant (frontier sorted ascending by the active strategy's key, ties in
ascending id order, all held ids bounded by the node counter); (2) under
the invariant, the Selecting step removes a node of minimal key from the
frontier, breaking ties by smallest id, and appends it to explored;
(3) under the invariant, the state produced by the subsequent expansion
satisfies the invariant again. -/
theorem C8_driver_invariant {σ : Type} [DecidableEq σ] :
    (∀ (strat : Strategy) (s0 : σ) (hOpt : Option (σ → Int)),
      DriverInv strat (initState s0 hOpt)) ∧
    (∀ (strat : Strategy) (st : RunState σ) (x : Node σ) (st1 : RunState σ),
      DriverInv strat st → selectStep st = some (x, st1) →
      (∀ n ∈ st.frontier, keyFunc strat x ≤ keyFunc strat n ∧
        (keyFunc strat x = keyFunc strat n → x.id ≤ n.id)) ∧
      st1.explored = st.explored ++ [x] ∧ x :: st1.frontier = st.frontier) ∧
    (∀ (strat : Strategy) (hOpt : Option (σ → Int))
      (next : σ → List (σ × Int)) (st : RunState σ) (x : Node σ)
      (st1 : RunState σ) (r : ExpandOut σ × Nat) (p : Nat),
      DriverInv strat st → selectStep st = some (x, st1) →
      expandStep strat hOpt next x st1.frontier st1.explored st1.count =
        .ok r →
      DriverInv strat
        ⟨r.1.frontier, r.1.explored, r.2, p⟩) := by
  refine ⟨?_, ?_, ?_⟩
  · intro strat s0 hOpt
    constructor
    · simp [initState]
    · intro n hn
      simp only [initState, List.append_nil, List.mem_singleton] at hn
      subst hn
      simp [rootNode, initState]
  · intro strat st x st1 hinv hsel
    unfold selectStep at hsel
    cases hf : st.frontier with
    | nil => rw [hf] at hsel; exact absurd hsel (by simp)
    | cons y rest =>
      rw [hf] at hsel
      simp only [Option.some.injEq, Prod.mk.injEq] at hsel
      obtain ⟨rfl, rfl⟩ := hsel
      obtain ⟨hpw, _⟩ := hinv
      rw [hf] at hpw
      obtain ⟨hhead, _⟩ := List.pairwise_cons.mp hpw
      refine ⟨?_, rfl, rfl⟩
      intro n hn
      rcases List.mem_cons.mp hn with rfl | hn'
      · exact ⟨le_refl _, fun _ => le_refl _⟩
      · rcases hhead n hn' with hlt | ⟨heq, hid⟩
        · exact ⟨le_of_lt hlt, fun he => absurd (he ▸ hlt) (lt_irrefl _)⟩
        · exact ⟨le_of_eq heq, fun _ => le_of_lt hid⟩
  · intro strat hOpt next st x st1 r p hinv hsel hstep
    obtain ⟨hpw, hids⟩ := hinv
    unfold selectStep at hsel
    cases hf : st.frontier with
    | nil => rw [hf] at hsel; exact absurd hsel (by simp)
    | cons y rest =>
      rw [hf] at hsel
      simp only [Option.some.injEq, Prod.mk.injEq] at hsel
      obtain ⟨hxy, hst1⟩ := hsel
      subst hst1
      rw [← hxy] at hstep
      rw [hf] at hpw hids
      have hrestPW : rest.Pairwise (frontR (keyFunc strat)) :=
        (List.pairwise_cons.mp hpw).2
      have hrestIds : ∀ n ∈ rest ++ (st.explored ++ [y]), n.id ≤ st.count := by
        intro n hn
        rcases List.mem_append.mp hn with h1 | h2
        · exact hids n (List.mem_append_left _ (List.mem_cons_of_mem y h1))
        · rcases List.mem_append.mp h2 with h3 | h4
          · exact hids n (List.mem_append_right _ h3)
          · rw [List.mem_singleton] at h4
            rw [h4]
            exact hids y (List.mem_append_left _ (List.mem_cons_self y rest))
      cases hOpt with
      | some hf2 =>
        simp only [expandStep, Except.ok.injEq] at hstep
        obtain rfl := hstep.symm
        have hinv2 := expandPrune_inv strat
          (genNew y hf2 (next y.state) st.count).1 rest (st.explored ++ [y])
          st.count (genNew y hf2 (next y.state) st.count).2
          hrestPW hrestIds
          (genNew_ids y hf2 (next y.state) st.count)
          (by
            intro n hn
            obtain ⟨s, c, i, _, hlt, hle, rfl⟩ :=
              genNew_mem y hf2 (next y.state) st.count n hn
            rw [genNew_count]
            exact ⟨by simpa using hlt, by simpa using hle⟩)
          (by rw [genNew_count]; omega)
        exact ⟨hinv2.1, hinv2.2⟩
      | none =>
        cases hnx : next y.state with
        | nil =>
          simp only [expandStep, hnx, Except.ok.injEq] at hstep
          obtain rfl := hstep.symm
          have hinv2 := expandPrune_inv strat [] rest (st.explored ++ [y])
            st.count st.count hrestPW hrestIds (by simp)
            (by intro n hn; simp at hn) (le_refl _)
          exact ⟨hinv2.1, hinv2.2⟩
        | cons a l =>
          simp [expandStep, hnx] at hstep

/-- Witness for C8: at the freshly initialized driver state the invariant
holds, and the first Selecting step pops the root as the minimal-key node
and appends it to explored. -/
theorem C8_driver_invariant_witness :
    DriverInv .uc (initState (0 : Nat) none) ∧
    ((∀ n ∈ (initState (0 : Nat) none).frontier,
        keyFunc .uc (rootNode (0 : Nat) none) ≤ keyFunc .uc n ∧
        (keyFunc .uc (rootNode (0 : Nat) none) = keyFunc .uc n →
          (rootNode (0 : Nat) none).id ≤ n.id)) ∧
      (⟨[], [rootNode (0 : Nat) none], 1, 0⟩ : RunState Nat).explored =
        (initState (0 : Nat) none).explored ++ [rootNode (0 : Nat) none] ∧
      rootNode (0 : Nat) none ::
          (⟨[], [rootNode (0 : Nat) none], 1, 0⟩ : RunState Nat).frontier =
        (initState (0 : Nat) none).frontier) :=
  ⟨(C8_driver_invariant (σ := Nat)).1 .uc 0 none,
   (C8_driver_invariant (σ := Nat)).2.1 .uc (initState 0 none)
     (rootNode 0 none) ⟨[], [rootNode 0 none], 1, 0⟩
     ((C8_driver_invariant (σ := Nat)).1 .uc 0 none) rfl⟩
